import Mathlib

/-!
Verification of the `nagging-nancy` reminder tracker core against its
natural-language specification.

The Go sources are shallowly embedded as executable Lean definitions:

* Timestamps are modelled as `Int` minutes since an arbitrary epoch in the
  process's fixed local timezone; `time.Date(Y, M, D of t, h, m, 0, 0, loc)`
  becomes `(dayIndex t) * 1440 + h * 60 + m` and a calendar day is a value of
  `dayIndex`.  All comparisons, durations (`time.Hour` = 60, `15*time.Minute`
  = 15) and day arithmetic (`AddDate(0,0,1)` = `+ 1440`) are transcribed at
  this granularity.
* Text is modelled as `List Char`.  The Go regular expressions used by the
  parser (fixed patterns over ASCII classes) are transcribed as backtracking
  scanners with the same leftmost-first preference semantics as Go's regexp
  package on these patterns.
* Calls into the operating system (file writes, process spawning, the
  desktop-notification executables) are modelled as explicit parameters or
  state fields: the store carries a `file` field holding what was last
  persisted, and notification dispatch outcomes for the external desktop
  channel are an oracle parameter.
-/

set_option maxRecDepth 4000

/-! ### Characters and text (Go `strings` / `regexp` helpers) -/

/-- Go `unicode.IsSpace` restricted to ASCII (the only characters the parser
deals with): space, tab, newline, vertical tab, form feed, carriage return.
Used by `strings.TrimSpace`. -/
def isGoSpace (c : Char) : Bool :=
  c = ' ' || c = '\t' || c = '\n' || c = '\x0b' || c = '\x0c' || c = '\r'

/-- RE2 character class `\s` = `[\t\n\f\r ]`. -/
def isReSpace (c : Char) : Bool :=
  c = ' ' || c = '\t' || c = '\n' || c = '\x0c' || c = '\r'

/-- RE2 character class `\w` = `[0-9A-Za-z_]`. -/
def isWordChar (c : Char) : Bool :=
  c.isAlphanum || c = '_'

/-- `strings.TrimSpace`: remove leading and trailing whitespace. -/
def trimChars (s : List Char) : List Char :=
  ((s.dropWhile isGoSpace).reverse.dropWhile isGoSpace).reverse

/-- `strconv.Atoi` on a non-empty all-digit string (the only way the parser
calls it, since the digits come out of `\d` capture groups). -/
def natOfDigits (s : List Char) : Nat :=
  s.foldl (fun a c => a * 10 + (c.toNat - '0'.toNat)) 0

/-- Lower-case a captured string, as `strings.ToLower` does on the ASCII
captures produced by the parser's patterns. -/
def lowerChars (s : List Char) : List Char :=
  s.map Char.toLower

/-- Whether a list of characters begins with a `\w` character. -/
def startsWord : List Char → Bool
  | [] => false
  | c :: _ => isWordChar c

/-! ### Priority (`internal/models`) -/

/-- `models.Priority`: Low, Medium, High. -/
inductive Priority where
  | low
  | medium
  | high
deriving DecidableEq, Repr, Inhabited

/-! ### Reminder (`internal/models`) -/

/-- `models.RecurringRule`. -/
structure RecurringRule where
  frequency : List Char
  interval : Int
  endDate : Option Int
deriving DecidableEq, Repr

/-- `models.Reminder`.  `time.Time` fields are minutes since epoch;
`CompletedAt *time.Time` is an `Option`. -/
structure Reminder where
  id : List Char
  title : List Char
  description : List Char := []
  dueTime : Int
  priority : Priority
  completed : Bool
  completedAt : Option Int
  createdAt : Int
  updatedAt : Int
  tags : List (List Char)
  recurring : Option RecurringRule := none
deriving DecidableEq, Repr, Inhabited

/-- `models.NewReminder`: fresh reminder with generated id (the id is passed
in here, standing for the generated UUID) and `now` timestamps. -/
def newReminder (id : List Char) (title : List Char) (dueTime : Int)
    (priority : Priority) (now : Int) : Reminder :=
  { id := id, title := title, dueTime := dueTime, priority := priority,
    completed := false, completedAt := none, createdAt := now,
    updatedAt := now, tags := [] }

/-- The calendar day a timestamp falls on (Go compares `Year()` and
`YearDay()`; in the fixed-timezone minute model two stamps are on the same
day iff they have the same day index). -/
def dayIndex (t : Int) : Int := t / 1440

/-- `Reminder.IsOverdue`: not completed and `time.Now().After(DueTime)`. -/
def Reminder.isOverdue (r : Reminder) (now : Int) : Bool :=
  !r.completed && now > r.dueTime

/-- `Reminder.IsDueToday`: not completed and due on the current calendar day. -/
def Reminder.isDueToday (r : Reminder) (now : Int) : Bool :=
  !r.completed && dayIndex now = dayIndex r.dueTime

/-- `Reminder.IsDueSoon`: not completed and due within the next hour but not
yet passed. -/
def Reminder.isDueSoon (r : Reminder) (now : Int) : Bool :=
  !r.completed && (r.dueTime - now ≤ 60 && r.dueTime - now > 0)

/-- `Reminder.Complete`: marks completed, stamping `CompletedAt` and
`UpdatedAt`, only when not already completed. -/
def Reminder.complete (r : Reminder) (now : Int) : Reminder :=
  if !r.completed then
    { r with completed := true, completedAt := some now, updatedAt := now }
  else r

/-- `Reminder.Uncomplete`: clears the completed flag and `CompletedAt`, only
when currently completed. -/
def Reminder.uncomplete (r : Reminder) (now : Int) : Reminder :=
  if r.completed then
    { r with completed := false, completedAt := none, updatedAt := now }
  else r

/-- `Reminder.Toggle`. -/
def Reminder.toggle (r : Reminder) (now : Int) : Reminder :=
  if r.completed then r.uncomplete now else r.complete now

/-- `Reminder.HasTag`. -/
def Reminder.hasTag (r : Reminder) (tag : List Char) : Bool :=
  r.tags.any (· = tag)

/-- One completion-state mutation of a reminder, with the wall-clock time at
which it runs. -/
inductive CompletionOp where
  | complete (t : Int)
  | uncomplete (t : Int)
  | toggle (t : Int)
deriving DecidableEq, Repr

/-- Apply one completion-state mutation. -/
def applyOp (r : Reminder) : CompletionOp → Reminder
  | .complete t => r.complete t
  | .uncomplete t => r.uncomplete t
  | .toggle t => r.toggle t

/-- Apply a sequence of completion-state mutations in order. -/
def applyOps (r : Reminder) (ops : List CompletionOp) : Reminder :=
  ops.foldl applyOp r

/-! ### Store (`internal/models/store.go`)

The in-memory `map[string]*Reminder` is an association list in unspecified
order (Go map iteration order is unspecified); the backing file is the
`file` field, rewritten in full by `Save`. -/

/-- Lookup in the reminder map. -/
def mapLookup (l : List (List Char × Reminder)) (id : List Char) :
    Option Reminder :=
  (l.find? (fun p => p.1 = id)).map Prod.snd

/-- Insert/replace in the reminder map (`s.reminders[id] = r`). -/
def mapInsert (l : List (List Char × Reminder)) (id : List Char)
    (r : Reminder) : List (List Char × Reminder) :=
  if (l.find? (fun p => p.1 = id)).isSome then
    l.map (fun p => if p.1 = id then (id, r) else p)
  else l ++ [(id, r)]

/-- `models.Store`: the in-memory map plus the persisted file contents. -/
structure Store where
  reminders : List (List Char × Reminder)
  file : List Reminder
deriving DecidableEq, Repr

/-- `Store.Save`: serialize the full in-memory set and rewrite the file.
File-system write errors are outside the model; a save always succeeds and
the file afterwards holds exactly the in-memory set. -/
def Store.save (s : Store) : Store :=
  { s with file := s.reminders.map Prod.snd }

/-- `Store.Add`: rejects only a nil reminder; otherwise inserts keyed by its
id and synchronously saves.  The argument is an `Option` because the Go
signature takes a possibly-nil pointer. -/
def Store.add (s : Store) (reminder : Option Reminder) : Except String Store :=
  match reminder with
  | none => .error "reminder cannot be nil"
  | some r => .ok (Store.save { s with reminders := mapInsert s.reminders r.id r })

/-- `Store.Get`: exact-id lookup returning a copy. -/
def Store.get (s : Store) (id : List Char) : Except String Reminder :=
  match mapLookup s.reminders id with
  | none => .error "reminder not found"
  | some r => .ok r

/-- `Store.CompleteReminder`: completes the stored record in place, then
saves. -/
def Store.completeReminder (s : Store) (id : List Char) (now : Int) :
    Except String Store :=
  match mapLookup s.reminders id with
  | none => .error "reminder not found"
  | some r =>
    .ok (Store.save { s with reminders := mapInsert s.reminders id (r.complete now) })

/-- `models.FilterOptions`. -/
structure FilterOptions where
  showCompleted : Bool := false
  priority : Option Priority := none
  dueToday : Bool := false
  overdue : Bool := false
  tags : List (List Char) := []
  limit : Int := 0
deriving Repr

/-- The per-record filter conditions of `Store.GetAll` (a record is kept iff
none of the `continue` branches fires). -/
def passesFilter (f : FilterOptions) (now : Int) (r : Reminder) : Bool :=
  (f.showCompleted || !r.completed) &&
  (match f.priority with
   | none => true
   | some p => r.priority = p) &&
  (!f.dueToday || r.isDueToday now) &&
  (!f.overdue || r.isOverdue now) &&
  (f.tags.isEmpty || f.tags.any r.hasTag)

/-- The comparison closure passed to `sort.Slice` in `GetAll`: completed
records sort after incomplete ones, ties by ascending due time. -/
def lessRem (a b : Reminder) : Bool :=
  if a.completed && !b.completed then false
  else if !a.completed && b.completed then true
  else a.dueTime < b.dueTime

/-- The (total, transitive) non-strict order induced by `lessRem`; a list is
a possible output of Go's `sort.Slice` with `lessRem` iff it is a permutation
of the input pairwise ordered by `leRem`. -/
def leRem (a b : Reminder) : Bool := !lessRem b a

/-- `Store.GetAll`: filter, sort (completed last, due time ascending), then
truncate when a positive limit is set.  Go's `sort.Slice` is unstable and map
iteration order is arbitrary, so the model fixes one sorted arrangement via
`mergeSort`; every property proved about it below is order-insensitive or
about sortedness itself. -/
def Store.getAll (s : Store) (filter : Option FilterOptions) (now : Int) :
    List Reminder :=
  let kept := (s.reminders.map Prod.snd).filter
    (fun r => match filter with
      | none => true
      | some f => passesFilter f now r)
  let sorted := kept.mergeSort leRem
  match filter with
  | none => sorted
  | some f =>
    if 0 < f.limit ∧ f.limit < (sorted.length : Int) then
      sorted.take f.limit.toNat
    else sorted

/-! ### Notifier (`internal/utils/notifications.go`)

The three notification methods.  Whether the desktop channel works depends on
the host system (`exec.LookPath` / `cmd.Run`), so the desktop send outcome is
an oracle parameter; `sendTerminalBell` and `logNotification` write to stderr
and return nil unconditionally. -/

/-- `utils.NotificationMethod`. -/
inductive NotificationMethod where
  | desktopNotification
  | terminalBell
  | logOnly
deriving DecidableEq, Repr

/-- `utils.Notifier`: current method plus the fixed fallback chain. -/
structure Notifier where
  method : NotificationMethod
  fallbackMethods : List NotificationMethod
deriving Repr

/-- `utils.NewNotifier` / `NewNotifierWithMethod`: both construct the
fallback chain `[TerminalBell, LogOnly]`; the primary method is the
auto-detected (or explicitly chosen) one. -/
def newNotifier (method : NotificationMethod) : Notifier :=
  { method := method, fallbackMethods := [.terminalBell, .logOnly] }

/-- `Notifier.sendWithMethod`, given the outcome of the external desktop
channel: the desktop branch reports whatever the platform command did, while
the terminal-bell and log-only branches print to stderr and return nil. -/
def sendWithMethod (desktopResult : Option String) :
    NotificationMethod → Option String
  | .desktopNotification => desktopResult
  | .terminalBell => none
  | .logOnly => none

/-- The fallback loop inside `Notifier.Send`: try each fallback in order,
returning success on the first that succeeds; if none does, return the
aggregate error built from `err`, the error of the primary attempt (the
fallback errors are discarded). -/
def tryFallbacks (run : NotificationMethod → Option String) (err : String) :
    List NotificationMethod → Option String
  | [] => some ("all notification methods failed, last error: " ++ err)
  | fb :: rest =>
    match run fb with
    | none => none
    | some _ => tryFallbacks run err rest

/-- `Notifier.Send` with the per-method outcome abstracted (`run` stands for
`sendWithMethod` applied to this notifier): attempt the primary method, and
on failure walk the fallback chain.  Returns `none` on success, `some e` when
every method failed. -/
def sendRun (run : NotificationMethod → Option String) (n : Notifier) :
    Option String :=
  match run n.method with
  | none => none
  | some err => tryFallbacks run err n.fallbackMethods

/-- `Notifier.Send` proper: `sendRun` over the real `sendWithMethod`. -/
def Notifier.send (n : Notifier) (desktopResult : Option String) :
    Option String :=
  sendRun (sendWithMethod desktopResult) n

/-! ### Daemon monitor loop (`internal/cli/root.go`, `checkReminders`)

The dedup state `lastNotified : map[string]time.Time` is an association
list from reminder id to the minute of the last successful notification. -/

/-- Lookup in the dedup map. -/
def dedupLookup (m : List (List Char × Int)) (id : List Char) : Option Int :=
  (m.find? (fun p => p.1 = id)).map Prod.snd

/-- Insert/replace in the dedup map (`d.lastNotified[id] = now`). -/
def dedupInsert (m : List (List Char × Int)) (id : List Char) (t : Int) :
    List (List Char × Int) :=
  if (m.find? (fun p => p.1 = id)).isSome then
    m.map (fun p => if p.1 = id then (id, t) else p)
  else m ++ [(id, t)]

/-- A successfully delivered notification: reminder id, notification type,
and the tick time at which it was sent. -/
structure NotifEvent where
  id : List Char
  ntype : String
  sentAt : Int
deriving DecidableEq, Repr

/-- One tick's inputs: the active reminders obtained from
`store.Load()`+`GetAll(ShowCompleted: false)`, the wall-clock `now`, and the
dispatch outcome of `Notifier.Send` for each reminder id this tick (the
boundary to the external notification channel). -/
structure TickInput where
  reminders : List Reminder
  now : Int
  sendOk : List Char → Bool

/-- The body of `checkReminders`' per-reminder loop: decide whether to
notify (classification first match wins: overdue, due soon, due today; each
guarded by its dedup rule), send, and on success record `now` for the id. -/
def checkOne (now : Int) (sendOk : List Char → Bool)
    (acc : List (List Char × Int) × List NotifEvent) (r : Reminder) :
    List (List Char × Int) × List NotifEvent :=
  let (m, evs) := acc
  if r.completed then (m, evs)
  else
    let decision : Option String :=
      if r.isOverdue now then
        match dedupLookup m r.id with
        | none => some "overdue"
        | some last => if now - last > 60 then some "overdue" else none
      else if r.isDueSoon now then
        match dedupLookup m r.id with
        | none => some "due_soon"
        | some last => if now - last > 15 then some "due_soon" else none
      else if r.isDueToday now then
        match dedupLookup m r.id with
        | none => some "due_today"
        | some last =>
          if last < dayIndex now * 1440 then some "due_today" else none
      else none
    match decision with
    | none => (m, evs)
    | some ntype =>
      if sendOk r.id then
        (dedupInsert m r.id now, evs ++ [⟨r.id, ntype, now⟩])
      else (m, evs)

/-- One full `checkReminders` pass: garbage-collect dedup entries whose id is
no longer among the active reminders, then process each reminder in order.
Returns the new dedup map and the notifications successfully sent. -/
def tick (m : List (List Char × Int)) (inp : TickInput) :
    List (List Char × Int) × List NotifEvent :=
  let ids := inp.reminders.map Reminder.id
  let m1 := m.filter (fun p => ids.contains p.1)
  inp.reminders.foldl (checkOne inp.now inp.sendOk) (m1, [])

/-- A sequence of monitor ticks, accumulating all sent notifications. -/
def runTicks (m : List (List Char × Int)) :
    List TickInput → List (List Char × Int) × List NotifEvent
  | [] => (m, [])
  | inp :: rest =>
    let (m', evs) := tick m inp
    let (m'', evs') := runTicks m' rest
    (m'', evs ++ evs')

/-- The classification decision tree of the spec, spelled out as raw time
comparisons: completed reminders are skipped; otherwise overdue (due time
already passed) wins, else due soon (due within the next hour, not yet
passed), else due today (same calendar day), else nothing. -/
def specClassify (r : Reminder) (now : Int) : Option String :=
  if r.completed then none
  else if now > r.dueTime then some "overdue"
  else if 0 < r.dueTime - now ∧ r.dueTime - now ≤ 60 then some "due_soon"
  else if dayIndex now = dayIndex r.dueTime then some "due_today"
  else none

/-- Hour-rate-limit check over a run: given the dedup entry holding the time
of the most recent earlier notification (if any), successive notification
times must each come more than 60 minutes after the previous one. -/
def gapsOverAnHour : Option Int → List Int → Bool
  | _, [] => true
  | none, t :: ts => gapsOverAnHour (some t) ts
  | some t0, t :: ts => (t - t0 > 60) && gapsOverAnHour (some t) ts

/-- The times at which a given reminder id was successfully notified. -/
def eventTimesFor (id : List Char) (evs : List NotifEvent) : List Int :=
  (evs.filter (fun e => e.id = id)).map NotifEvent.sentAt

/-- A tick input is a well-formed "persistently overdue" observation for an
id: the id occurs exactly once among the tick's reminders, not completed and
already past due at that tick's time. -/
def overdueAt (id : List Char) (inp : TickInput) : Bool :=
  match inp.reminders.filter (fun r => r.id = id) with
  | [r] => !r.completed && inp.now > r.dueTime
  | _ => false

/-! ### Natural-language parsing (`internal/utils/notifications.go`, parser part)

The six fixed time patterns, the two priority patterns and the hashtag
pattern are transcribed as scanners over `List Char` with the regexp
package's leftmost-first match and submatch semantics: a pattern is tried at
each position from the left, and at a position the alternatives and quantifier
lengths are tried in the regexp's preference order (greedy, alternation in
listed order), backtracking on failure of the rest of the pattern. -/

/-- Submatch captures, in group order. -/
abbrev Caps := List (List Char)

/-- Result of attempting a pattern at a fixed position: the captures and the
text remaining after the matched span. -/
abbrev TryRes := Option (Caps × List Char)

/-- Consume a fixed word case-insensitively (the pattern literals are all
ASCII lower case); returns the remaining text. -/
def dropCI : List Char → List Char → Option (List Char)
  | [], s => some s
  | _ :: _, [] => none
  | p :: ps, c :: cs => if c.toLower = p.toLower then dropCI ps cs else none

/-- Pattern literal: match `pat` case-insensitively, then continue. -/
def pLit (pat : String) (k : List Char → TryRes) (s : List Char) : TryRes :=
  match dropCI pat.data s with
  | some rest => k rest
  | none => none

/-- `\s+`, greedy.  In every pattern below the construct following a `\s+` or
`\s*` cannot begin with a `\s` character, so consuming maximally never loses
a match and no backtracking over the space count is needed. -/
def pSp1 (k : List Char → TryRes) (s : List Char) : TryRes :=
  match s with
  | c :: cs => if isReSpace c then k (cs.dropWhile isReSpace) else none
  | [] => none

/-- `\s*`, greedy (see `pSp1` for why no backtracking is needed). -/
def pSp0 (k : List Char → TryRes) (s : List Char) : TryRes :=
  k (s.dropWhile isReSpace)

/-- Backtracking driver for a bounded greedy digit group: try `n` digits
first, then fewer, stopping at `lo`. -/
def pDigitsTry (lo : Nat) (run : List Char) (s : List Char)
    (k : List Char → List Char → TryRes) : Nat → TryRes
  | 0 => if lo = 0 then k [] s else none
  | n + 1 =>
    if n + 1 < lo then none
    else
      match k (run.take (n + 1)) (s.drop (n + 1)) with
      | some r => some r
      | none => pDigitsTry lo run s k n

/-- `(\d{lo,hi})`, greedy with backtracking; the capture is passed to the
continuation. -/
def pDigits (lo hi : Nat) (k : List Char → List Char → TryRes)
    (s : List Char) : TryRes :=
  let run := (s.takeWhile Char.isDigit).take hi
  pDigitsTry lo run s k run.length

/-- `(\d+)`, greedy.  It is always followed by `\s+` in the patterns below,
so no backtracking over the digit count is needed. -/
def pDigitsAll (k : List Char → List Char → TryRes) (s : List Char) : TryRes :=
  let run := s.takeWhile Char.isDigit
  if run.isEmpty then none else k run (s.drop run.length)

/-- `c?` for a single literal character, greedy with backtracking. -/
def pOptChar (ch : Char) (k : List Char → TryRes) (s : List Char) : TryRes :=
  match s with
  | c :: cs =>
    if c = ch then
      match k cs with
      | some r => some r
      | none => k (c :: cs)
    else k (c :: cs)
  | [] => k []

/-- `w?` for a literal word (case-insensitive), greedy with backtracking. -/
def pOptLit (w : String) (k : List Char → TryRes) (s : List Char) : TryRes :=
  match dropCI w.data s with
  | some rest =>
    (match k rest with
     | some r => some r
     | none => k s)
  | none => k s

/-- Alternation over literal words in listed order, with backtracking; the
continuation receives the matched span as it appears in the input. -/
def pAltCI : List String → (List Char → List Char → TryRes) → List Char →
    TryRes
  | [], _, _ => none
  | w :: ws, k, s =>
    (match dropCI w.data s with
     | some rest =>
       match k (s.take w.data.length) rest with
       | some r => some r
       | none => pAltCI ws k s
     | none => pAltCI ws k s)

/-- `(am|pm)?`, greedy with backtracking, capturing the matched span. -/
def pAmPm (k : List Char → List Char → TryRes) (s : List Char) : TryRes :=
  match pAltCI ["am", "pm"] k s with
  | some r => some r
  | none => k [] s

/-- The shared tail `(\d{1,2}):?(\d{0,2})\s*(am|pm)?` of the today/tomorrow/
at/bare/weekday patterns; the continuation receives hour digits, minute
digits and am/pm captures. -/
def pHM (k : List Char → List Char → List Char → List Char → TryRes)
    (s : List Char) : TryRes :=
  pDigits 1 2 (fun h =>
    pOptChar ':' (pDigits 0 2 (fun m =>
      pSp0 (pAmPm (fun ap => k h m ap))))) s

/-- `(?i)today\s+at\s+(\d{1,2}):?(\d{0,2})\s*(am|pm)?` at one position. -/
def tryToday : List Char → TryRes :=
  pLit "today" (pSp1 (pLit "at" (pSp1 (pHM (fun h m ap rest =>
    some ([h, m, ap], rest))))))

/-- `(?i)tomorrow\s+at\s+(\d{1,2}):?(\d{0,2})\s*(am|pm)?` at one position. -/
def tryTomorrow : List Char → TryRes :=
  pLit "tomorrow" (pSp1 (pLit "at" (pSp1 (pHM (fun h m ap rest =>
    some ([h, m, ap], rest))))))

/-- `(?i)in\s+(\d+)\s+(minute|minutes|hour|hours|min|hr|hrs)s?` at one
position. -/
def tryIn : List Char → TryRes :=
  pLit "in" (pSp1 (pDigitsAll (fun n =>
    pSp1 (pAltCI ["minute", "minutes", "hour", "hours", "min", "hr", "hrs"]
      (fun u => pOptLit "s" (fun rest => some ([n, u], rest)))))))

/-- `(?i)at\s+(\d{1,2}):?(\d{0,2})\s*(am|pm)?` at one position. -/
def tryAt : List Char → TryRes :=
  pLit "at" (pSp1 (pHM (fun h m ap rest => some ([h, m, ap], rest))))

/-- `(?i)^(\d{1,2}):?(\d{0,2})\s*(am|pm)?$`: the whole text is a bare time
(the `^` anchor is enforced by trying this pattern only at position 0, the
`$` anchor by requiring the rest to be empty, with the combinators
backtracking over shorter digit groups as the regexp engine would). -/
def tryBare : List Char → TryRes :=
  pHM (fun h m ap rest =>
    if rest.isEmpty then some ([h, m, ap], rest) else none)

/-- The weekday names, in the pattern's alternation order. -/
def weekdayNames : List String :=
  ["monday", "tuesday", "wednesday", "thursday", "friday", "saturday",
   "sunday"]

/-- `(?i)(monday|...|sunday)\s+(?:at\s+)?(\d{1,2}):?(\d{0,2})\s*(am|pm)?` at
one position. -/
def tryWeekday : List Char → TryRes :=
  pAltCI weekdayNames (fun wd =>
    pSp1 (fun s =>
      match pLit "at" (pSp1 (pHM (fun h m ap rest =>
          some ([wd, h, m, ap], rest)))) s with
      | some r => some r
      | none => pHM (fun h m ap rest => some ([wd, h, m, ap], rest)) s))

/-- `FindStringSubmatch`: scan positions left to right, returning the
captures of the leftmost match. -/
def findAt (tryPat : List Char → TryRes) : List Char → Option Caps
  | [] => (tryPat []).map Prod.fst
  | c :: cs =>
    match (tryPat (c :: cs)).map Prod.fst with
    | some caps => some caps
    | none => findAt tryPat cs

/-- `ReplaceAllString(text, "")`: scan positions left to right, deleting each
non-overlapping leftmost match and continuing after it.  For a `^`-anchored
pattern only position 0 is tried.  The fuel argument (always called with
`length + 1`) only bounds the recursion; every pattern here consumes at least
one character per match, so the fuel never runs out. -/
def replAllAux (tryPat : List Char → TryRes) (anchored : Bool) :
    Nat → Bool → List Char → List Char
  | 0, _, s => s
  | _ + 1, _, [] => []
  | fuel + 1, atStart, c :: cs =>
    if anchored && !atStart then c :: cs
    else
      match tryPat (c :: cs) with
      | some (_, rest) =>
        if rest.length < cs.length + 1 then
          replAllAux tryPat anchored fuel false rest
        else c :: cs
      | none => c :: replAllAux tryPat anchored fuel false cs

/-- One of the parser's `timePatterns` entries: whether the regex is
`^`-anchored, the matcher at a position, and the handler turning captures and
the base time into a due time (`none` = handler error). -/
structure TimePat where
  anchored : Bool
  tryPat : List Char → TryRes
  handler : Caps → Int → Option Int

/-- `parseTimeToday`: hour/minute from the captures, am/pm normalization
(pm: +12 below 12; am: 12 becomes 0), validation (hour ≤ 23, minute ≤ 59),
same day as the base time, rolled to the next day if already past. -/
def parseTimeToday (caps : Caps) (baseTime : Int) : Option Int :=
  let hour0 := natOfDigits (caps.getD 0 [])
  let minute := if caps.getD 1 [] ≠ [] then natOfDigits (caps.getD 1 []) else 0
  let ap := lowerChars (caps.getD 2 [])
  let hour :=
    if ap = "pm".data ∧ hour0 < 12 then hour0 + 12
    else if ap = "am".data ∧ hour0 = 12 then 0
    else hour0
  if 23 < hour ∨ 59 < minute then none
  else
    let target : Int := dayIndex baseTime * 1440 + hour * 60 + minute
    some (if target < baseTime then target + 1440 else target)

/-- `parseTimeTomorrow`: the today result shifted one day forward. -/
def parseTimeTomorrow (caps : Caps) (baseTime : Int) : Option Int :=
  (parseTimeToday caps baseTime).map (· + 1440)

/-- `parseTimeRelative`: `in N minutes/hours` offsets from the base time. -/
def parseTimeRelative (caps : Caps) (baseTime : Int) : Option Int :=
  let n := natOfDigits (caps.getD 0 [])
  let u := lowerChars (caps.getD 1 [])
  if u = "minute".data ∨ u = "minutes".data ∨ u = "min".data then
    some (baseTime + n)
  else if u = "hour".data ∨ u = "hours".data ∨ u = "hr".data ∨
      u = "hrs".data then
    some (baseTime + n * 60)
  else none

/-- Weekday numbering as in Go's `time.Weekday` (Sunday = 0); day index 0 of
the model's epoch is taken to fall on a Thursday as the Unix epoch does. -/
def weekdayIdx : List Char → Option Int
  | s =>
    if s = "sunday".data then some 0
    else if s = "monday".data then some 1
    else if s = "tuesday".data then some 2
    else if s = "wednesday".data then some 3
    else if s = "thursday".data then some 4
    else if s = "friday".data then some 5
    else if s = "saturday".data then some 6
    else none

/-- `parseTimeWeekday`: next strictly-future occurrence of the named weekday
(same weekday rolls a full week), with am/pm normalization and no
hour/minute validation (exactly as the source, which omits the range check
this handler's siblings perform). -/
def parseTimeWeekday (caps : Caps) (baseTime : Int) : Option Int :=
  match weekdayIdx (lowerChars (caps.getD 0 [])) with
  | none => none
  | some target =>
    let hour0 := natOfDigits (caps.getD 1 [])
    let minute :=
      if caps.getD 2 [] ≠ [] then natOfDigits (caps.getD 2 []) else 0
    let ap := lowerChars (caps.getD 3 [])
    let hour :=
      if ap = "pm".data ∧ hour0 < 12 then hour0 + 12
      else if ap = "am".data ∧ hour0 = 12 then 0
      else hour0
    let current := (dayIndex baseTime + 4) % 7
    let diff := target - current
    let days := if diff ≤ 0 then diff + 7 else diff
    some ((dayIndex baseTime + days) * 1440 + hour * 60 + minute)

/-- The parser's `timePatterns` list, in source order. -/
def timePatterns : List TimePat :=
  [⟨false, tryToday, parseTimeToday⟩,
   ⟨false, tryTomorrow, parseTimeTomorrow⟩,
   ⟨false, tryIn, parseTimeRelative⟩,
   ⟨false, tryAt, parseTimeToday⟩,
   ⟨true, tryBare, parseTimeToday⟩,
   ⟨false, tryWeekday, parseTimeWeekday⟩]

/-- `FindStringSubmatch` for one pattern (anchored patterns match only at
position 0). -/
def findPat (p : TimePat) (s : List Char) : Option Caps :=
  if p.anchored then (p.tryPat s).map Prod.fst else findAt p.tryPat s

/-- `ReplaceAllString(s, "")` for one pattern. -/
def replPat (p : TimePat) (s : List Char) : List Char :=
  replAllAux p.tryPat p.anchored (s.length + 1) true s

/-- `extractTime`'s loop: the first pattern that both matches and whose
handler succeeds wins; its matches are removed from the text and the result
trimmed.  Returns `none` when no pattern applies (the caller then keeps the
one-hour default and `hasTime = false`). -/
def extractTimeGo (now : Int) : List TimePat → List Char →
    Option (Int × List Char)
  | [], _ => none
  | p :: ps, text =>
    match findPat p text with
    | some caps =>
      match p.handler caps now with
      | some t => some (t, trimChars (replPat p text))
      | none => extractTimeGo now ps text
    | none => extractTimeGo now ps text

/-- `extractTime`. -/
def extractTime (text : List Char) (now : Int) : Option (Int × List Char) :=
  extractTimeGo now timePatterns text

/-- The High-priority keywords, in the pattern's alternation order. -/
def highKeywords : List (List Char) :=
  ["urgent".data, "important".data, "high".data, "critical".data,
   "asap".data]

/-- The Low-priority keywords, in the pattern's alternation order. -/
def lowKeywords : List (List Char) :=
  ["low".data, "minor".data, "sometime".data, "eventually".data]

/-- Whether `kw` matches at the current position under
`(?i)\b(kw)\b`: the previous character (if any) is not a word character, the
keyword matches case-insensitively, and the following character (if any) is
not a word character. -/
def kwHereOk (kw : List Char) (prev : Option Char) (s : List Char) : Bool :=
  (match prev with
   | none => true
   | some c => !isWordChar c) &&
  (dropCI kw s).isSome &&
  (match dropCI kw s with
   | some rest => !startsWord rest
   | none => false)

/-- The first keyword of the alternation matching at this position (at most
one can, since no keyword is a prefix of another). -/
def kwFindAt (kws : List (List Char)) (prev : Option Char) (s : List Char) :
    Option (List Char) :=
  kws.find? (fun kw => kwHereOk kw prev s)

/-- `MatchString` for a `(?i)\b(kw1|...|kwn)\b` pattern: some keyword matches
at some position. -/
def hasKwAux (kws : List (List Char)) : Option Char → List Char → Bool
  | _, [] => false
  | prev, c :: cs =>
    (kwFindAt kws prev (c :: cs)).isSome || hasKwAux kws (some c) cs

/-- `MatchString` from the start of the text. -/
def hasKw (kws : List (List Char)) (s : List Char) : Bool :=
  hasKwAux kws none s

/-- `ReplaceAllString(text, "")` for a keyword pattern: delete each
non-overlapping leftmost keyword occurrence; boundary checks look at the
original characters around the deleted span.  Fuel as in `replAllAux`. -/
def stripKwsAux (kws : List (List Char)) :
    Nat → Option Char → List Char → List Char
  | 0, _, s => s
  | _ + 1, _, [] => []
  | fuel + 1, prev, c :: cs =>
    match kwFindAt kws prev (c :: cs) with
    | some kw =>
      stripKwsAux kws fuel (((c :: cs).take kw.length).getLast?)
        ((c :: cs).drop kw.length)
    | none => c :: stripKwsAux kws fuel (some c) cs

/-- Keyword deletion from the start of the text. -/
def stripKws (kws : List (List Char)) (s : List Char) : List Char :=
  stripKwsAux kws (s.length + 1) none s

/-- `extractPriority`: first matching priority pattern wins (High before
Low); its keywords are deleted and the remainder trimmed; with no match the
text is returned unchanged with `models.Medium`. -/
def extractPriority (text : List Char) : Priority × List Char :=
  if hasKw highKeywords text then
    (.high, trimChars (stripKws highKeywords text))
  else if hasKw lowKeywords text then
    (.low, trimChars (stripKws lowKeywords text))
  else (.medium, text)

/-- The `#(\w+)` scan underlying `extractTags`: walk the text once, and at
each `#` immediately followed by a word character take the maximal word-
character run as a tag, continuing after it (this is exactly the
non-overlapping leftmost matching that `FindAllStringSubmatch` and
`ReplaceAllString` both perform).  Returns (tags in match order, text with
the matched spans deleted).  Fuel as in `replAllAux`. -/
def extractTagsAux : Nat → List Char → List (List Char) × List Char
  | 0, s => ([], s)
  | _ + 1, [] => ([], [])
  | fuel + 1, c :: cs =>
    if c = '#' ∧ startsWord cs then
      let run := cs.takeWhile isWordChar
      let (ts, clean) := extractTagsAux fuel (cs.dropWhile isWordChar)
      (run :: ts, clean)
    else
      let (ts, clean) := extractTagsAux fuel cs
      (ts, c :: clean)

/-- `extractTags`: all `#word` matches as tags (without the `#`), the text
with the matched spans removed and trimmed; with no match the text is
returned unchanged. -/
def extractTags (text : List Char) : List (List Char) × List Char :=
  let (tags, clean) := extractTagsAux (text.length + 1) text
  if tags.isEmpty then ([], text)
  else (tags, trimChars clean)

/-- `utils.ParsedReminder`. -/
structure ParsedReminder where
  title : List Char
  dueTime : Int
  priority : Priority
  tags : List (List Char)
  hasTime : Bool
deriving DecidableEq, Repr

/-- The title left after `ParseReminder`'s time-extraction step. -/
def titleAfterTime (text : List Char) (now : Int) : List Char :=
  match extractTime text now with
  | some (_, clean) => trimChars clean
  | none => text

/-- The priority-extraction step of `ParseReminder` (lines 406-410): take
`extractPriority`'s result only when it differs from the caller-supplied
default, in which case the stripped text (trimmed) replaces the title. -/
def priorityStep (title : List Char) (defaultPriority : Priority) :
    Priority × List Char :=
  let (p, clean) := extractPriority title
  if p ≠ defaultPriority then (p, trimChars clean) else (defaultPriority, title)

/-- The tag-extraction step of `ParseReminder` (lines 412-416): take
`extractTags`'s result only when at least one tag was found. -/
def tagsStep (title : List Char) : List (List Char) × List Char :=
  let (tags, clean) := extractTags title
  if tags.length > 0 then (tags, trimChars clean) else ([], title)

/-- `utils.ParseReminder`: reject blank input; extract time, then priority,
then tags, each rewriting the running title; reject an empty leftover
title. -/
def parseReminder (text : List Char) (defaultPriority : Priority)
    (now : Int) : Except String ParsedReminder :=
  if (trimChars text).isEmpty then .error "reminder text cannot be empty"
  else
    let dueTime0 : Int × Bool :=
      match extractTime text now with
      | some (t, _) => (t, true)
      | none => (now + 60, false)
    let title1 := titleAfterTime text now
    let (priority, title2) := priorityStep title1 defaultPriority
    let (tags, title3) := tagsStep title2
    let finalTitle := trimChars title3
    if finalTitle.isEmpty then
      .error "reminder title cannot be empty after parsing"
    else
      .ok ⟨finalTitle, dueTime0.1, priority, tags, dueTime0.2⟩

/-- Declarative characterization of the `#(\\w+)` scan: a text decomposes
into kept characters and `#`-prefixed maximal word runs.  `keep` may pass a
character only where no match starts (the `#`-followed-by-word-character
case must take `tag`), and a `tag` consumes a non-empty all-word run that is
maximal (the remainder does not start with a word character); `tags`
collects the runs in text order and `clean` the kept characters. -/
inductive TagDecomp : List Char → List (List Char) → List Char → Prop where
  | nil : TagDecomp [] [] []
  | keep (c : Char) {s : List Char} {tags : List (List Char)}
      {clean : List Char} :
      ¬(c = '#' ∧ startsWord s = true) → TagDecomp s tags clean →
      TagDecomp (c :: s) tags (c :: clean)
  | tag {run s : List Char} {tags : List (List Char)} {clean : List Char} :
      run ≠ [] → (∀ c ∈ run, isWordChar c = true) → startsWord s = false →
      TagDecomp s tags clean →
      TagDecomp ('#' :: (run ++ s)) (run :: tags) clean

deriving instance DecidableEq for Except

/-! ## Helper lemmas -/

theorem mapLookup_mapInsert_self (l : List (List Char × Reminder))
    (id : List Char) (r : Reminder) :
    mapLookup (mapInsert l id r) id = some r := by
  induction l with
  | nil => simp [mapInsert, mapLookup, List.find?]
  | cons p ps ih =>
    by_cases hp : p.1 = id
    · simp [mapInsert, mapLookup, hp]
    · have hstep : (p :: ps).find? (fun q => q.1 = id) =
          ps.find? (fun q => q.1 = id) :=
        List.find?_cons_of_neg _ (by simpa using hp)
      unfold mapInsert mapLookup at ih ⊢
      rw [hstep]
      by_cases hf : (ps.find? (fun q => q.1 = id)).isSome
      · simp only [hf, if_true] at ih ⊢
        simp only [List.map_cons, if_neg hp]
        rw [List.find?_cons_of_neg _ (by simpa using hp)]
        exact ih
      · simp only [hf, Bool.false_eq_true, if_false] at ih ⊢
        rw [List.cons_append, List.find?_cons_of_neg _ (by simpa using hp)]
        exact ih

theorem complete_completed (r : Reminder) (t : Int) :
    (r.complete t).completed = true := by
  unfold Reminder.complete
  by_cases h : r.completed <;> simp [h]

theorem complete_complete (r : Reminder) (t t' : Int) :
    (r.complete t).complete t' = r.complete t := by
  unfold Reminder.complete
  by_cases h : r.completed <;> simp [h]

theorem applyOp_preserves_inv (r : Reminder) (op : CompletionOp)
    (h : r.completedAt.isSome = r.completed) :
    (applyOp r op).completedAt.isSome = (applyOp r op).completed := by
  cases op with
  | complete t =>
    simp only [applyOp, Reminder.complete]
    by_cases hc : r.completed <;> simp [hc, h]
  | uncomplete t =>
    simp only [applyOp, Reminder.uncomplete]
    by_cases hc : r.completed <;> simp [hc, h]
  | toggle t =>
    simp only [applyOp, Reminder.toggle, Reminder.complete, Reminder.uncomplete]
    by_cases hc : r.completed <;> simp [hc, h]

theorem applyOps_preserves_inv (ops : List CompletionOp) (r : Reminder)
    (h : r.completedAt.isSome = r.completed) :
    (applyOps r ops).completedAt.isSome = (applyOps r ops).completed := by
  induction ops generalizing r with
  | nil => simpa [applyOps]
  | cons op rest ih =>
    have := applyOp_preserves_inv r op h
    simpa [applyOps, List.foldl_cons] using ih (applyOp r op) this

/-! ## Claim theorems -/

/-- C9: for every reminder produced by `NewReminder` and after any sequence
of `Complete`, `Uncomplete` and `Toggle` operations, `completedAt` is
non-null if and only if `completed` is true. -/
theorem c9_completedAt_iff_completed (id title : List Char) (dueTime : Int)
    (p : Priority) (now : Int) (ops : List CompletionOp) :
    (applyOps (newReminder id title dueTime p now) ops).completedAt.isSome =
      (applyOps (newReminder id title dueTime p now) ops).completed :=
  applyOps_preserves_inv ops _ (by simp [newReminder])

/-- C8: `CompleteReminder` is idempotent on an existing id: the second call
succeeds and afterwards the record is unchanged from the first call, in
particular still completed with the same `completedAt`. -/
theorem c8_completeReminder_idempotent (s : Store) (id : List Char)
    (t1 t2 : Int) (s1 : Store)
    (h : s.completeReminder id t1 = .ok s1) :
    ∃ s2, s1.completeReminder id t2 = .ok s2 ∧
      mapLookup s2.reminders id = mapLookup s1.reminders id ∧
      ∃ r, mapLookup s1.reminders id = some r ∧ r.completed = true := by
  unfold Store.completeReminder at h
  cases hl : mapLookup s.reminders id with
  | none => rw [hl] at h; exact absurd h (by simp)
  | some r0 =>
    rw [hl] at h
    have hs1 : s1 =
        Store.save { s with reminders := mapInsert s.reminders id (r0.complete t1) } := by
      cases h; rfl
    subst hs1
    have hlook1 :
        mapLookup (Store.save
          { s with reminders := mapInsert s.reminders id (r0.complete t1) }).reminders id =
          some (r0.complete t1) := by
      simpa [Store.save] using mapLookup_mapInsert_self s.reminders id (r0.complete t1)
    refine ⟨Store.save { (Store.save
        { s with reminders := mapInsert s.reminders id (r0.complete t1) }) with
        reminders := mapInsert (Store.save
          { s with reminders := mapInsert s.reminders id (r0.complete t1) }).reminders
          id ((r0.complete t1).complete t2) },
      ?_, ?_, r0.complete t1, hlook1, complete_completed r0 t1⟩
    · unfold Store.completeReminder
      rw [hlook1]
    · rw [hlook1]
      rw [complete_complete]
      simpa [Store.save] using
        mapLookup_mapInsert_self
          (mapInsert s.reminders id (r0.complete t1)) id (r0.complete t1)

/-- Concrete data for exercising the store claims: a one-reminder store. -/
def wRem : Reminder :=
  { id := "a".data, title := "t".data, dueTime := 100, priority := .medium,
    completed := false, completedAt := none, createdAt := 0, updatedAt := 0,
    tags := [] }

/-- The store holding just `wRem`, already saved. -/
def wStore : Store := ⟨[("a".data, wRem)], [wRem]⟩

/-- `wStore` after completing `wRem` at time 5. -/
def wStore1 : Store :=
  ⟨[("a".data, wRem.complete 5)], [wRem.complete 5]⟩

/-- C8 witness: completing the concrete reminder at time 5 and again at time
9 leaves the stored record unchanged and completed. -/
theorem c8_witness :
    wStore.completeReminder "a".data 5 = .ok wStore1 ∧
    ∃ s2, wStore1.completeReminder "a".data 9 = .ok s2 ∧
      mapLookup s2.reminders "a".data = mapLookup wStore1.reminders "a".data ∧
      ∃ r, mapLookup wStore1.reminders "a".data = some r ∧
        r.completed = true :=
  ⟨by decide, c8_completeReminder_idempotent wStore "a".data 5 9 wStore1 (by decide)⟩

/-- C3 (amended): `Store.Add` validates nothing beyond nil-ness — it rejects
a nil reminder with the fixed error, and for every (possibly malformed, e.g.
empty-titled) reminder it succeeds, inserting the record keyed by its id and
synchronously persisting the full set. -/
theorem c3_add_only_checks_nil (s : Store) (r : Reminder) :
    Store.add s none = .error "reminder cannot be nil" ∧
    ∃ s', Store.add s (some r) = .ok s' ∧
      mapLookup s'.reminders r.id = some r ∧
      s'.file = s'.reminders.map Prod.snd :=
  ⟨rfl, Store.save { s with reminders := mapInsert s.reminders r.id r },
    rfl, by simpa [Store.save] using mapLookup_mapInsert_self s.reminders r.id r,
    rfl⟩

/-- A malformed reminder: its title is empty. -/
def emptyTitleRem : Reminder :=
  { id := "r1".data, title := [], dueTime := 0, priority := .medium,
    completed := false, completedAt := none, createdAt := 0, updatedAt := 0,
    tags := [] }

/-- C3 counterexample: `Add` accepts a reminder with an empty title instead
of failing with a validation error — no field validation happens. -/
theorem c3_counterexample :
    emptyTitleRem.title = [] ∧
    Store.add ⟨[], []⟩ (some emptyTitleRem) =
      .ok ⟨[("r1".data, emptyTitleRem)], [emptyTitleRem]⟩ := by
  decide

/-- C10: `Send` returns success whatever the desktop channel does and
whichever method is primary: the terminal-bell fallback is always in the
chain and never fails, so the all-methods-failed branch is unreachable and
`Send` never returns an error. -/
theorem c10_send_never_fails (m : NotificationMethod)
    (desktopResult : Option String) :
    (newNotifier m).send desktopResult = none := by
  cases m <;> cases desktopResult <;> rfl

/-- C4 (amended): `Send` tries the primary method and then the fixed
fallback chain (terminal bell, then log-only) until one succeeds; it fails
exactly when every method fails, and the aggregate error then references the
primary method's failure (the fallback errors are discarded) — in the
shipped notifier the bell fallback never fails, so that branch never runs. -/
theorem c4_fallback_order_and_error (run : NotificationMethod → Option String)
    (m : NotificationMethod) :
    (newNotifier m).fallbackMethods = [.terminalBell, .logOnly] ∧
    (sendRun run (newNotifier m) = none ↔
      run m = none ∨ run .terminalBell = none ∨ run .logOnly = none) ∧
    (∀ e, run m = some e →
      run .terminalBell ≠ none → run .logOnly ≠ none →
      sendRun run (newNotifier m) =
        some ("all notification methods failed, last error: " ++ e)) := by
  refine ⟨rfl, ?_, ?_⟩
  · rcases hm : run m with _ | em <;>
      rcases hb : run .terminalBell with _ | eb <;>
      rcases hl : run .logOnly with _ | el <;>
      simp [sendRun, newNotifier, tryFallbacks, hm, hb, hl]
  · intro e hme hb hl
    rcases hbe : run .terminalBell with _ | eb
    · exact absurd hbe hb
    · rcases hle : run .logOnly with _ | el
      · exact absurd hle hl
      · simp [sendRun, newNotifier, tryFallbacks, hme, hbe, hle]

/-- Dispatch outcomes where every method fails, with distinct errors so that
which failure the aggregate error references is observable. -/
def allFailRun : NotificationMethod → Option String
  | .desktopNotification => some "desktop boom"
  | .terminalBell => some "bell boom"
  | .logOnly => some "log boom"

/-- C4 counterexample: when every method fails, the aggregate error wraps the
primary (first) failure, not the last underlying failure (the log-only
fallback's, which fails last). -/
theorem c4_counterexample :
    sendRun allFailRun (newNotifier .desktopNotification) =
      some "all notification methods failed, last error: desktop boom" ∧
    sendRun allFailRun (newNotifier .desktopNotification) ≠
      some "all notification methods failed, last error: log boom" := by
  constructor
  · decide
  · decide

/-- C4 witness: at the all-failing outcome the hypotheses of the amended
fallback theorem hold and yield the aggregate error wrapping the primary
failure. -/
theorem c4_witness :
    allFailRun .desktopNotification = some "desktop boom" ∧
    sendRun allFailRun (newNotifier .desktopNotification) =
      some ("all notification methods failed, last error: " ++ "desktop boom") :=
  ⟨rfl, (c4_fallback_order_and_error allFailRun .desktopNotification).2.2
    "desktop boom" rfl (by decide) (by decide)⟩

theorem leRem_trans (a b c : Reminder) (h1 : leRem a b = true)
    (h2 : leRem b c = true) : leRem a c = true := by
  unfold leRem lessRem at *
  cases ha : a.completed <;> cases hb : b.completed <;> cases hc : c.completed <;>
    simp_all <;> omega

theorem leRem_total (a b : Reminder) : (leRem a b || leRem b a) = true := by
  unfold leRem lessRem
  cases ha : a.completed <;> cases hb : b.completed <;> simp_all <;> omega

theorem passesFilter_limit_irrel (f : FilterOptions) (now : Int) (r : Reminder) :
    passesFilter { f with limit := 0 } now r = passesFilter f now r := by
  cases f
  rfl

/-- C7: `GetAll` returns records passing the filter, ordered with incomplete
records before completed ones and ascending by due time within each group
(`leRem` is exactly that order); a zero limit returns the whole
filtered-and-sorted snapshot, and a positive limit truncates it only after
filtering and ordering. -/
theorem c7_getAll_filter_sort_limit (s : Store) (f : FilterOptions) (now : Int) :
    (∀ r ∈ s.getAll (some f) now, passesFilter f now r = true) ∧
    (s.getAll (some f) now).Pairwise (fun a b => leRem a b = true) ∧
    (f.limit = 0 →
      (s.getAll (some f) now).Perm
        ((s.reminders.map Prod.snd).filter (passesFilter f now))) ∧
    (0 < f.limit →
      s.getAll (some f) now =
        (s.getAll (some { f with limit := 0 }) now).take f.limit.toNat) := by
  unfold Store.getAll
  have hkept :
      ((s.reminders.map Prod.snd).filter
        (fun r => match some f with
          | none => true
          | some f => passesFilter f now r)) =
      (s.reminders.map Prod.snd).filter (passesFilter f now) := rfl
  simp only [hkept]
  set kept := (s.reminders.map Prod.snd).filter (passesFilter f now) with hk
  set sorted := kept.mergeSort leRem with hs
  have hsorted : sorted.Pairwise (fun a b => leRem a b = true) :=
    List.sorted_mergeSort leRem_trans leRem_total kept
  have hperm : sorted.Perm kept := List.mergeSort_perm kept leRem
  have hmem : ∀ r ∈ sorted, passesFilter f now r = true := by
    intro r hr
    have : r ∈ kept := hperm.mem_iff.mp hr
    exact (List.mem_filter.mp this).2
  refine ⟨?_, ?_, ?_, ?_⟩
  · intro r hr
    by_cases hc : 0 < f.limit ∧ f.limit < (sorted.length : Int)
    · rw [if_pos hc] at hr
      exact hmem r (List.take_subset _ _ hr)
    · rw [if_neg hc] at hr
      exact hmem r hr
  · by_cases hc : 0 < f.limit ∧ f.limit < (sorted.length : Int)
    · rw [if_pos hc]
      exact List.Pairwise.sublist (List.take_sublist _ _) hsorted
    · rw [if_neg hc]
      exact hsorted
  · intro h0
    have hc : ¬(0 < f.limit ∧ f.limit < (sorted.length : Int)) := by
      rw [h0]; simp
    rw [if_neg hc]
    exact hperm
  · intro hpos
    have hkept0 :
        ((s.reminders.map Prod.snd).filter
          (fun r => match some { f with limit := 0 } with
            | none => true
            | some g => passesFilter g now r)) = kept := by
      rw [hk]
      apply List.filter_congr
      intro r _
      exact passesFilter_limit_irrel f now r
    simp only [hkept0]
    have h00 : ¬((0 : Int) < ({ f with limit := 0 } : FilterOptions).limit ∧
        ({ f with limit := 0 } : FilterOptions).limit < (sorted.length : Int)) := by
      simp
    rw [if_neg h00]
    by_cases hc : 0 < f.limit ∧ f.limit < (sorted.length : Int)
    · rw [if_pos hc]
    · rw [if_neg hc]
      have hle : sorted.length ≤ f.limit.toNat := by
        rcases not_and_or.mp hc with h | h
        · exact absurd hpos h
        · have := not_lt.mp h
          omega
      exact (List.take_of_length_le hle).symm

theorem dedupLookup_dedupInsert_self (m : List (List Char × Int))
    (id : List Char) (t : Int) :
    dedupLookup (dedupInsert m id t) id = some t := by
  induction m with
  | nil => simp [dedupInsert, dedupLookup, List.find?]
  | cons p ps ih =>
    by_cases hp : p.1 = id
    · simp [dedupInsert, dedupLookup, hp]
    · have hstep : (p :: ps).find? (fun q => q.1 = id) =
          ps.find? (fun q => q.1 = id) :=
        List.find?_cons_of_neg _ (by simpa using hp)
      unfold dedupInsert dedupLookup at ih ⊢
      rw [hstep]
      by_cases hf : (ps.find? (fun q => q.1 = id)).isSome
      · simp only [hf, if_true] at ih ⊢
        simp only [List.map_cons, if_neg hp]
        rw [List.find?_cons_of_neg _ (by simpa using hp)]
        exact ih
      · simp only [hf, Bool.false_eq_true, if_false] at ih ⊢
        rw [List.cons_append, List.find?_cons_of_neg _ (by simpa using hp)]
        exact ih

theorem dedupLookup_map_replace (m : List (List Char × Int))
    (id id' : List Char) (t : Int) (h : id ≠ id') :
    dedupLookup (m.map (fun q => if q.1 = id then (id, t) else q)) id' =
      dedupLookup m id' := by
  induction m with
  | nil => rfl
  | cons p ps ih =>
    unfold dedupLookup at ih ⊢
    simp only [List.map_cons]
    by_cases hp : p.1 = id
    · rw [if_pos hp, List.find?_cons_of_neg _ (by simpa using h),
        List.find?_cons_of_neg _ (by rw [hp]; simpa using h)]
      exact ih
    · rw [if_neg hp]
      by_cases hp' : p.1 = id'
      · rw [List.find?_cons_of_pos _ (by simpa using hp'),
          List.find?_cons_of_pos _ (by simpa using hp')]
      · rw [List.find?_cons_of_neg _ (by simpa using hp'),
          List.find?_cons_of_neg _ (by simpa using hp')]
        exact ih

theorem dedupLookup_append_single (m : List (List Char × Int))
    (id id' : List Char) (t : Int) (h : id ≠ id') :
    dedupLookup (m ++ [(id, t)]) id' = dedupLookup m id' := by
  induction m with
  | nil =>
    unfold dedupLookup
    rw [List.nil_append, List.find?_cons_of_neg _ (by simpa using h)]
  | cons p ps ih =>
    unfold dedupLookup at ih ⊢
    rw [List.cons_append]
    by_cases hp' : p.1 = id'
    · rw [List.find?_cons_of_pos _ (by simpa using hp'),
        List.find?_cons_of_pos _ (by simpa using hp')]
    · rw [List.find?_cons_of_neg _ (by simpa using hp'),
        List.find?_cons_of_neg _ (by simpa using hp')]
      exact ih

theorem dedupLookup_dedupInsert_other (m : List (List Char × Int))
    (id id' : List Char) (t : Int) (h : id ≠ id') :
    dedupLookup (dedupInsert m id t) id' = dedupLookup m id' := by
  unfold dedupInsert
  by_cases hf : (m.find? (fun q => q.1 = id)).isSome
  · rw [if_pos hf]
    exact dedupLookup_map_replace m id id' t h
  · rw [if_neg hf]
    exact dedupLookup_append_single m id id' t h

theorem dedupLookup_filter_contains (m : List (List Char × Int))
    (ids : List (List Char)) (id : List Char) (h : ids.contains id = true) :
    dedupLookup (m.filter (fun p => ids.contains p.1)) id = dedupLookup m id := by
  induction m with
  | nil => rfl
  | cons p ps ih =>
    unfold dedupLookup at ih ⊢
    by_cases hp : p.1 = id
    · have hc : ids.contains p.1 = true := by rw [hp]; exact h
      rw [List.filter_cons_of_pos (by simpa using hc),
        List.find?_cons_of_pos _ (by simpa using hp),
        List.find?_cons_of_pos _ (by simpa using hp)]
    · by_cases hk : ids.contains p.1 = true
      · rw [List.filter_cons_of_pos (by simpa using hk),
          List.find?_cons_of_neg _ (by simpa using hp),
          List.find?_cons_of_neg _ (by simpa using hp)]
        exact ih
      · rw [List.filter_cons_of_neg (by simpa using hk),
          List.find?_cons_of_neg _ (by simpa using hp)]
        exact ih

theorem specClassify_of_overdue (r : Reminder) (now : Int)
    (h : r.isOverdue now = true) : specClassify r now = some "overdue" := by
  unfold Reminder.isOverdue at h
  simp only [Bool.and_eq_true, Bool.not_eq_true', decide_eq_true_eq] at h
  unfold specClassify
  rw [if_neg (by simp [h.1]), if_pos h.2]

theorem specClassify_of_dueSoon (r : Reminder) (now : Int)
    (ho : r.isOverdue now = false) (h : r.isDueSoon now = true) :
    specClassify r now = some "due_soon" := by
  unfold Reminder.isOverdue at ho
  unfold Reminder.isDueSoon at h
  simp only [Bool.and_eq_true, Bool.not_eq_true', decide_eq_true_eq] at h
  simp only [Bool.and_eq_false_iff, Bool.not_eq_false', decide_eq_false_iff_not] at ho
  unfold specClassify
  rcases ho with hc | hnd
  · rw [hc] at h
    simp at h
  · rw [if_neg (by simp [h.1]), if_neg hnd, if_pos (by omega)]

theorem specClassify_of_dueToday (r : Reminder) (now : Int)
    (ho : r.isOverdue now = false) (hs : r.isDueSoon now = false)
    (h : r.isDueToday now = true) : specClassify r now = some "due_today" := by
  unfold Reminder.isOverdue at ho
  unfold Reminder.isDueSoon at hs
  unfold Reminder.isDueToday at h
  simp only [Bool.and_eq_true, Bool.not_eq_true', decide_eq_true_eq] at h
  simp only [Bool.and_eq_false_iff, Bool.not_eq_false', decide_eq_false_iff_not] at ho hs
  unfold specClassify
  rcases ho with hc | hnd
  · rw [hc] at h
    simp at h
  · rcases hs with hc | hns
    · rw [hc] at h
      simp at h
    · rw [if_neg (by simp [h.1]), if_neg hnd, if_neg (by omega), if_pos h.2]

theorem checkOne_shape (now : Int) (sendOk : List Char → Bool)
    (acc : List (List Char × Int) × List NotifEvent) (r : Reminder) :
    (r.completed = true → checkOne now sendOk acc r = acc) ∧
    (((checkOne now sendOk acc r).1 = acc.1 ∧
      (checkOne now sendOk acc r).2 = acc.2) ∨
     (∃ nt, specClassify r now = some nt ∧ sendOk r.id = true ∧
       (checkOne now sendOk acc r).1 = dedupInsert acc.1 r.id now ∧
       (checkOne now sendOk acc r).2 = acc.2 ++ [⟨r.id, nt, now⟩] ∧
       (nt = "overdue" →
         dedupLookup acc.1 r.id = none ∨
         ∃ t, dedupLookup acc.1 r.id = some t ∧ now - t > 60))) := by
  obtain ⟨am, aevs⟩ := acc
  unfold checkOne
  by_cases hc : r.completed = true
  · exact ⟨fun _ => by simp [hc], Or.inl (by simp [hc])⟩
  · refine ⟨fun h => absurd h hc, ?_⟩
    simp only [Bool.not_eq_true] at hc
    simp only [hc, Bool.false_eq_true, if_false]
    by_cases ho : r.isOverdue now = true
    · rw [if_pos ho]
      cases hl : dedupLookup am r.id with
      | none =>
        by_cases hsend : sendOk r.id = true
        · exact Or.inr ⟨"overdue", specClassify_of_overdue r now ho, hsend,
            by simp [hsend], by simp [hsend], fun _ => Or.inl rfl⟩
        · simp only [Bool.not_eq_true] at hsend
          exact Or.inl (by simp [hsend])
      | some t =>
        by_cases hgap : now - t > 60
        · by_cases hsend : sendOk r.id = true
          · exact Or.inr ⟨"overdue", specClassify_of_overdue r now ho, hsend,
              by simp [hgap, hsend], by simp [hgap, hsend],
              fun _ => Or.inr ⟨t, rfl, hgap⟩⟩
          · simp only [Bool.not_eq_true] at hsend
            exact Or.inl (by simp [hgap, hsend])
        · exact Or.inl (by simp [hgap])
    · simp only [Bool.not_eq_true] at ho
      rw [ho]
      simp only [Bool.false_eq_true, if_false]
      by_cases hds : r.isDueSoon now = true
      · rw [if_pos hds]
        cases hl : dedupLookup am r.id with
        | none =>
          by_cases hsend : sendOk r.id = true
          · exact Or.inr ⟨"due_soon", specClassify_of_dueSoon r now ho hds,
              hsend, by simp [hsend], by simp [hsend], by simp⟩
          · simp only [Bool.not_eq_true] at hsend
            exact Or.inl (by simp [hsend])
        | some t =>
          by_cases hgap : now - t > 15
          · by_cases hsend : sendOk r.id = true
            · exact Or.inr ⟨"due_soon", specClassify_of_dueSoon r now ho hds,
                hsend, by simp [hgap, hsend], by simp [hgap, hsend], by simp⟩
            · simp only [Bool.not_eq_true] at hsend
              exact Or.inl (by simp [hgap, hsend])
          · exact Or.inl (by simp [hgap])
      · simp only [Bool.not_eq_true] at hds
        rw [hds]
        simp only [Bool.false_eq_true, if_false]
        by_cases hdt : r.isDueToday now = true
        · rw [if_pos hdt]
          cases hl : dedupLookup am r.id with
          | none =>
            by_cases hsend : sendOk r.id = true
            · exact Or.inr ⟨"due_today",
                specClassify_of_dueToday r now ho hds hdt, hsend,
                by simp [hsend], by simp [hsend], by simp⟩
            · simp only [Bool.not_eq_true] at hsend
              exact Or.inl (by simp [hsend])
          | some t =>
            by_cases hday : t < dayIndex now * 1440
            · by_cases hsend : sendOk r.id = true
              · exact Or.inr ⟨"due_today",
                  specClassify_of_dueToday r now ho hds hdt, hsend,
                  by simp [hday, hsend], by simp [hday, hsend], by simp⟩
              · simp only [Bool.not_eq_true] at hsend
                exact Or.inl (by simp [hday, hsend])
            · exact Or.inl (by simp [hday])
        · simp only [Bool.not_eq_true] at hdt
          rw [hdt]
          simp only [Bool.false_eq_true, if_false]
          exact Or.inl (by simp)

theorem specClassify_completed (r : Reminder) (now : Int)
    (h : r.completed = true) : specClassify r now = none := by
  unfold specClassify
  rw [if_pos h]

theorem eventTimesFor_append (id : List Char) (a b : List NotifEvent) :
    eventTimesFor id (a ++ b) = eventTimesFor id a ++ eventTimesFor id b := by
  simp [eventTimesFor, List.filter_append]

theorem eventTimesFor_single_self (id : List Char) (nt : String) (t : Int) :
    eventTimesFor id [⟨id, nt, t⟩] = [t] := by
  simp [eventTimesFor]

theorem eventTimesFor_single_other (id rid : List Char) (nt : String)
    (t : Int) (h : rid ≠ id) : eventTimesFor id [⟨rid, nt, t⟩] = [] := by
  simp [eventTimesFor, h]

theorem fold_events_spec (now : Int) (sendOk : List Char → Bool) :
    ∀ (rs : List Reminder) (acc : List (List Char × Int) × List NotifEvent),
    ∀ ev ∈ (rs.foldl (checkOne now sendOk) acc).2,
      ev ∈ acc.2 ∨ ∃ r ∈ rs, r.id = ev.id ∧
        specClassify r now = some ev.ntype ∧ ev.sentAt = now := by
  intro rs
  induction rs with
  | nil => intro acc ev hev; exact Or.inl hev
  | cons r rest ih =>
    intro acc ev hev
    rw [List.foldl_cons] at hev
    rcases ih (checkOne now sendOk acc r) ev hev with hin | ⟨r', hr', h1, h2, h3⟩
    · rcases (checkOne_shape now sendOk acc r).2 with ⟨_, h2eq⟩ |
        ⟨nt, hcls, _, _, h2eq, _⟩
      · rw [h2eq] at hin
        exact Or.inl hin
      · rw [h2eq] at hin
        rcases List.mem_append.mp hin with hin | hin
        · exact Or.inl hin
        · have hev' : ev = ⟨r.id, nt, now⟩ := List.mem_singleton.mp hin
          subst hev'
          exact Or.inr ⟨r, List.mem_cons_self r rest, rfl, hcls, rfl⟩
    · exact Or.inr ⟨r', List.mem_cons_of_mem _ hr', h1, h2, h3⟩

theorem fold_overdue_gap (id : List Char) (now : Int)
    (sendOk : List Char → Bool) :
    ∀ (rs : List Reminder) (acc : List (List Char × Int) × List NotifEvent),
    (∀ r ∈ rs, r.id = id → r.completed = false ∧ now > r.dueTime) →
    ((eventTimesFor id (rs.foldl (checkOne now sendOk) acc).2 =
        eventTimesFor id acc.2 ∧
      dedupLookup (rs.foldl (checkOne now sendOk) acc).1 id =
        dedupLookup acc.1 id) ∨
     (eventTimesFor id (rs.foldl (checkOne now sendOk) acc).2 =
        eventTimesFor id acc.2 ++ [now] ∧
      dedupLookup (rs.foldl (checkOne now sendOk) acc).1 id = some now ∧
      sendOk id = true ∧
      (dedupLookup acc.1 id = none ∨
        ∃ t, dedupLookup acc.1 id = some t ∧ now - t > 60))) := by
  intro rs
  induction rs with
  | nil =>
    intro acc _
    exact Or.inl ⟨rfl, rfl⟩
  | cons r rest ih =>
    intro acc h
    rw [List.foldl_cons]
    have hrest := ih (checkOne now sendOk acc r)
      (fun r' hr' => h r' (List.mem_cons_of_mem _ hr'))
    rcases (checkOne_shape now sendOk acc r).2 with ⟨hm, hev⟩ |
      ⟨nt, hcls, hsend, hm, hev, hgap⟩
    · rcases hrest with ⟨h1, h2⟩ | ⟨h1, h2, h3, h4⟩
      · exact Or.inl ⟨by rw [h1, hev], by rw [h2, hm]⟩
      · exact Or.inr ⟨by rw [h1, hev], h2, h3, by rw [hm] at h4; exact h4⟩
    · by_cases hrid : r.id = id
      · have hro := h r (List.mem_cons_self r rest) hrid
        have hcls2 : specClassify r now = some "overdue" :=
          specClassify_of_overdue r now
            (by simp [Reminder.isOverdue, hro.1, hro.2])
        have hnt : nt = "overdue" := by
          rw [hcls2] at hcls
          exact (Option.some.inj hcls).symm
        have hlook' : dedupLookup (checkOne now sendOk acc r).1 id =
            some now := by
          rw [hm, hrid]
          exact dedupLookup_dedupInsert_self acc.1 id now
        have htimes' : eventTimesFor id (checkOne now sendOk acc r).2 =
            eventTimesFor id acc.2 ++ [now] := by
          rw [hev, eventTimesFor_append, hrid, eventTimesFor_single_self]
        rcases hrest with ⟨h1, h2⟩ | ⟨h1, h2, h3, h4⟩
        · refine Or.inr ⟨by rw [h1, htimes'], by rw [h2, hlook'], ?_, ?_⟩
          · rw [← hrid]
            exact hsend
          · have := hgap hnt
            rw [hrid] at this
            exact this
        · rw [hlook'] at h4
          rcases h4 with h4 | ⟨t, h4, h5⟩
          · exact absurd h4 (by simp)
          · have : now = t := Option.some.inj h4
            omega
      · have htimes' : eventTimesFor id (checkOne now sendOk acc r).2 =
            eventTimesFor id acc.2 := by
          rw [hev, eventTimesFor_append, eventTimesFor_single_other _ _ _ _ hrid,
            List.append_nil]
        have hlook' : dedupLookup (checkOne now sendOk acc r).1 id =
            dedupLookup acc.1 id := by
          rw [hm]
          exact dedupLookup_dedupInsert_other acc.1 r.id id now hrid
        rcases hrest with ⟨h1, h2⟩ | ⟨h1, h2, h3, h4⟩
        · exact Or.inl ⟨by rw [h1, htimes'], by rw [h2, hlook']⟩
        · exact Or.inr ⟨by rw [h1, htimes'], h2, h3,
            by rw [hlook'] at h4; exact h4⟩

theorem overdueAt_spec (id : List Char) (inp : TickInput)
    (h : overdueAt id inp = true) :
    (∀ r ∈ inp.reminders, r.id = id →
      r.completed = false ∧ inp.now > r.dueTime) ∧
    (inp.reminders.map Reminder.id).contains id = true := by
  unfold overdueAt at h
  cases hf : inp.reminders.filter (fun r => r.id = id) with
  | nil => rw [hf] at h; simp at h
  | cons r tl =>
    cases tl with
    | nil =>
      rw [hf] at h
      simp only [Bool.and_eq_true, Bool.not_eq_true', decide_eq_true_eq] at h
      have hrmem : r ∈ inp.reminders.filter (fun r => r.id = id) := by
        rw [hf]
        exact List.mem_singleton.mpr rfl
      have hr := List.mem_filter.mp hrmem
      constructor
      · intro r' hr' hid
        have hmem : r' ∈ inp.reminders.filter (fun r => r.id = id) :=
          List.mem_filter.mpr ⟨hr', by simpa using hid⟩
        rw [hf] at hmem
        have : r' = r := List.mem_singleton.mp hmem
        subst this
        exact ⟨h.1, h.2⟩
      · apply List.elem_eq_true_of_mem
        exact List.mem_map.mpr ⟨r, hr.1, by simpa using hr.2⟩
    | cons r2 tl2 => rw [hf] at h; simp at h

theorem tick_overdue (id : List Char) (m : List (List Char × Int))
    (inp : TickInput) (h : overdueAt id inp = true) :
    ((eventTimesFor id (tick m inp).2 = [] ∧
      dedupLookup (tick m inp).1 id = dedupLookup m id) ∨
     (eventTimesFor id (tick m inp).2 = [inp.now] ∧
      dedupLookup (tick m inp).1 id = some inp.now ∧
      inp.sendOk id = true ∧
      (dedupLookup m id = none ∨
        ∃ t, dedupLookup m id = some t ∧ inp.now - t > 60))) := by
  obtain ⟨h1, h2⟩ := overdueAt_spec id inp h
  have hgc : dedupLookup
      (m.filter (fun p => (inp.reminders.map Reminder.id).contains p.1)) id =
      dedupLookup m id :=
    dedupLookup_filter_contains m _ id h2
  have hfold := fold_overdue_gap id inp.now inp.sendOk inp.reminders
    (m.filter (fun p => (inp.reminders.map Reminder.id).contains p.1), []) h1
  simp only [tick]
  rcases hfold with ⟨ha, hb⟩ | ⟨ha, hb, hc, hd⟩
  · exact Or.inl ⟨by simpa [eventTimesFor] using ha, by rw [hb]; exact hgc⟩
  · refine Or.inr ⟨by simpa [eventTimesFor] using ha, hb, hc, ?_⟩
    rw [hgc] at hd
    exact hd

theorem runTicks_gap (id : List Char) :
    ∀ (inputs : List TickInput) (m : List (List Char × Int)),
    (∀ inp ∈ inputs, overdueAt id inp = true) →
    gapsOverAnHour (dedupLookup m id)
      (eventTimesFor id (runTicks m inputs).2) = true := by
  intro inputs
  induction inputs with
  | nil =>
    intro m _
    simp [runTicks, eventTimesFor, gapsOverAnHour]
  | cons inp rest ih =>
    intro m h
    rcases htick : tick m inp with ⟨m1, evs1⟩
    rcases hrun : runTicks m1 rest with ⟨m2, evs2⟩
    have hout : runTicks m (inp :: rest) = (m2, evs1 ++ evs2) := by
      simp [runTicks, htick, hrun]
    rw [hout, eventTimesFor_append]
    have hih := ih m1 (fun i hi => h i (List.mem_cons_of_mem _ hi))
    rw [hrun] at hih
    rcases tick_overdue id m inp (h inp (List.mem_cons_self inp rest)) with
      ⟨h1, h2⟩ | ⟨h1, h2, _, h4⟩
    · rw [htick] at h1 h2
      simp only at h1 h2
      rw [h1, List.nil_append, ← h2]
      exact hih
    · rw [htick] at h1 h2
      simp only at h1 h2
      rw [h1, List.singleton_append]
      rw [h2] at hih
      rcases h4 with h4 | ⟨t, h4, h5⟩
      · rw [h4]
        unfold gapsOverAnHour
        exact hih
      · rw [h4]
        unfold gapsOverAnHour
        simp only [Bool.and_eq_true, decide_eq_true_eq]
        exact ⟨h5, hih⟩

/-- C5: for a reminder id that is overdue and not completed at every tick of
a run, the successful notifications for that id are spaced more than one
hour apart (taking any pre-existing dedup entry into account), and a
dispatch failure leaves the dedup timestamp for the id unchanged, so the
next tick retries. -/
theorem c5_overdue_hour_dedup (id : List Char) (inputs : List TickInput)
    (m : List (List Char × Int))
    (h : ∀ inp ∈ inputs, overdueAt id inp = true) :
    gapsOverAnHour (dedupLookup m id)
      (eventTimesFor id (runTicks m inputs).2) = true ∧
    (∀ inp ∈ inputs, inp.sendOk id = false →
      ∀ m' : List (List Char × Int),
        dedupLookup (tick m' inp).1 id = dedupLookup m' id) := by
  refine ⟨runTicks_gap id inputs m h, ?_⟩
  intro inp hinp hfail m'
  rcases tick_overdue id m' inp (h inp hinp) with ⟨_, h2⟩ | ⟨_, _, h3, _⟩
  · exact h2
  · rw [hfail] at h3
    exact absurd h3 (by simp)

/-- C6: on each tick every successfully sent notification carries the class
the first-match decision tree assigns to its reminder — overdue (due time
passed), else due soon (due within the hour, not passed), else due today
(same calendar day) — and an id whose reminders are all completed is never
notified. -/
theorem c6_tick_classification (m : List (List Char × Int))
    (inp : TickInput) :
    (∀ ev ∈ (tick m inp).2, ∃ r ∈ inp.reminders, r.id = ev.id ∧
      specClassify r inp.now = some ev.ntype ∧ ev.sentAt = inp.now) ∧
    (∀ id, (∀ r ∈ inp.reminders, r.id = id → r.completed = true) →
      ∀ ev ∈ (tick m inp).2, ev.id ≠ id) := by
  have hbase : ∀ ev ∈ (tick m inp).2, ∃ r ∈ inp.reminders, r.id = ev.id ∧
      specClassify r inp.now = some ev.ntype ∧ ev.sentAt = inp.now := by
    intro ev hev
    simp only [tick] at hev
    rcases fold_events_spec inp.now inp.sendOk inp.reminders _ ev hev with
      hin | hr
    · simp at hin
    · exact hr
  refine ⟨hbase, ?_⟩
  intro id hall ev hev hid
  obtain ⟨r, hr, hrid, hcls, _⟩ := hbase ev hev
  have hc : r.completed = true := hall r hr (by rw [hrid, hid])
  rw [specClassify_completed r inp.now hc] at hcls
  exact absurd hcls (by simp)

/-- A concrete overdue reminder for exercising the monitor claims. -/
def ovRem : Reminder :=
  { id := "a".data, title := "t".data, dueTime := 90, priority := .high,
    completed := false, completedAt := none, createdAt := 0, updatedAt := 0,
    tags := [] }

/-- Three monitor ticks over `ovRem`, all after its due time: at minutes
100, 130 (within the hour of the first) and 170 (more than an hour after
the first), with dispatch always succeeding. -/
def ovTicks : List TickInput :=
  [⟨[ovRem], 100, fun _ => true⟩,
   ⟨[ovRem], 130, fun _ => true⟩,
   ⟨[ovRem], 170, fun _ => true⟩]

/-- C5 witness: on the concrete three-tick run the hypotheses hold and the
notification times for the overdue id are spaced more than an hour apart;
concretely the run notifies at minute 100 and again only at 170. -/
theorem c5_witness :
    (∀ inp ∈ ovTicks, overdueAt "a".data inp = true) ∧
    gapsOverAnHour (dedupLookup [] "a".data)
      (eventTimesFor "a".data (runTicks [] ovTicks).2) = true ∧
    eventTimesFor "a".data (runTicks [] ovTicks).2 = [100, 170] :=
  ⟨by decide,
   (c5_overdue_hour_dedup "a".data ovTicks [] (by decide)).1,
   by decide⟩

/-- C6 witness: the first tick of the concrete run sends exactly one
notification, and the classification theorem applied to it yields its
reminder with class "overdue". -/
theorem c6_witness :
    (⟨"a".data, "overdue", 100⟩ : NotifEvent) ∈
      (tick [] ⟨[ovRem], 100, fun _ => true⟩).2 ∧
    ∃ r ∈ [ovRem], r.id = "a".data ∧
      specClassify r 100 = some "overdue" ∧ (100 : Int) = 100 :=
  ⟨by decide,
   (c6_tick_classification [] ⟨[ovRem], 100, fun _ => true⟩).1
     ⟨"a".data, "overdue", 100⟩ (by decide)⟩

/-- An incomplete reminder due at minute 50. -/
def c7r1 : Reminder :=
  { id := "1".data, title := "x".data, dueTime := 50, priority := .medium,
    completed := false, completedAt := none, createdAt := 0, updatedAt := 0,
    tags := [] }

/-- A completed reminder due at minute 10. -/
def c7r2 : Reminder :=
  { id := "2".data, title := "y".data, dueTime := 10, priority := .medium,
    completed := true, completedAt := some 5, createdAt := 0, updatedAt := 0,
    tags := [] }

/-- An incomplete reminder due at minute 20. -/
def c7r3 : Reminder :=
  { id := "3".data, title := "z".data, dueTime := 20, priority := .medium,
    completed := false, completedAt := none, createdAt := 0, updatedAt := 0,
    tags := [] }

/-- A store with the three concrete reminders. -/
def c7s : Store :=
  ⟨[("1".data, c7r1), ("2".data, c7r2), ("3".data, c7r3)],
   [c7r1, c7r2, c7r3]⟩

/-- Show-completed filter with a limit of two. -/
def c7f : FilterOptions :=
  { showCompleted := true, priority := none, dueToday := false,
    overdue := false, tags := [], limit := 2 }

/-- C7 witness: with the concrete store and a positive limit the truncation
hypothesis holds, the result is the two-element prefix of the unlimited
snapshot, and concretely the incomplete reminders come first in due-time
order (the completed one is cut off by the limit). -/
theorem c7_witness :
    (0 : Int) < c7f.limit ∧
    c7s.getAll (some c7f) 0 =
      (c7s.getAll (some { c7f with limit := 0 }) 0).take c7f.limit.toNat ∧
    c7s.getAll (some c7f) 0 = [c7r3, c7r1] :=
  ⟨by decide,
   (c7_getAll_filter_sort_limit c7s c7f 0).2.2.2 (by decide),
   by simp [Store.getAll, passesFilter, Reminder.isDueToday,
     Reminder.isOverdue, Reminder.hasTag, c7s, c7f, c7r1, c7r2, c7r3,
     List.mergeSort, leRem, lessRem, List.filter, dayIndex]⟩

theorem length_dropWhile_le (p : Char → Bool) (l : List Char) :
    (l.dropWhile p).length ≤ l.length := by
  induction l with
  | nil => simp
  | cons c cs ih =>
    rw [List.dropWhile_cons]
    by_cases h : p c = true
    · rw [if_pos h]
      exact Nat.le_trans ih (Nat.le_succ _)
    · rw [if_neg (by simpa using h)]

theorem startsWord_dropWhile_word (cs : List Char) :
    startsWord (cs.dropWhile isWordChar) = false := by
  induction cs with
  | nil => rfl
  | cons c cs ih =>
    rw [List.dropWhile_cons]
    by_cases h : isWordChar c = true
    · rw [if_pos h]
      exact ih
    · rw [if_neg (by simpa using h)]
      simp only [startsWord]
      simpa using h

theorem takeWhile_word_ne_nil (cs : List Char) (h : startsWord cs = true) :
    cs.takeWhile isWordChar ≠ [] := by
  cases cs with
  | nil => simp [startsWord] at h
  | cons c cs =>
    simp only [startsWord] at h
    rw [List.takeWhile_cons, if_pos (by simpa using h)]
    simp

theorem extractTagsAux_decomp :
    ∀ (fuel : Nat) (s : List Char), s.length ≤ fuel →
    TagDecomp s (extractTagsAux fuel s).1 (extractTagsAux fuel s).2 := by
  intro fuel
  induction fuel with
  | zero =>
    intro s hs
    have : s = [] := List.eq_nil_of_length_eq_zero (Nat.le_zero.mp hs)
    subst this
    exact TagDecomp.nil
  | succ fuel ih =>
    intro s hs
    cases s with
    | nil => exact TagDecomp.nil
    | cons c cs =>
      by_cases hc : c = '#' ∧ startsWord cs = true
      · have hrun : cs.takeWhile isWordChar ++ cs.dropWhile isWordChar = cs :=
          List.takeWhile_append_dropWhile isWordChar cs
        have hlen : (cs.dropWhile isWordChar).length ≤ fuel := by
          have := length_dropWhile_le isWordChar cs
          simp only [List.length_cons] at hs
          omega
        have hrec := ih (cs.dropWhile isWordChar) hlen
        have hstep : extractTagsAux (fuel + 1) (c :: cs) =
            (cs.takeWhile isWordChar ::
              (extractTagsAux fuel (cs.dropWhile isWordChar)).1,
             (extractTagsAux fuel (cs.dropWhile isWordChar)).2) := by
          simp only [extractTagsAux, if_pos hc]
        rw [hstep]
        have hgoal : TagDecomp ('#' :: (cs.takeWhile isWordChar ++
            cs.dropWhile isWordChar))
            (cs.takeWhile isWordChar ::
              (extractTagsAux fuel (cs.dropWhile isWordChar)).1)
            (extractTagsAux fuel (cs.dropWhile isWordChar)).2 :=
          TagDecomp.tag (takeWhile_word_ne_nil cs hc.2)
            (fun c hcmem => List.mem_takeWhile_imp hcmem)
            (startsWord_dropWhile_word cs) hrec
        rw [hrun] at hgoal
        rw [hc.1]
        exact hgoal
      · have hlen : cs.length ≤ fuel := by
          simp only [List.length_cons] at hs
          omega
        have hstep : extractTagsAux (fuel + 1) (c :: cs) =
            ((extractTagsAux fuel cs).1,
             c :: (extractTagsAux fuel cs).2) := by
          simp only [extractTagsAux, if_neg hc]
        rw [hstep]
        exact TagDecomp.keep c hc (ih cs hlen)

theorem parseReminder_ok_fields (text : List Char) (d : Priority) (now : Int)
    (pr : ParsedReminder) (h : parseReminder text d now = .ok pr) :
    pr.priority = (priorityStep (titleAfterTime text now) d).1 ∧
    pr.tags = (tagsStep (priorityStep (titleAfterTime text now) d).2).1 ∧
    pr.title =
      trimChars (tagsStep (priorityStep (titleAfterTime text now) d).2).2 := by
  unfold parseReminder at h
  by_cases h0 : (trimChars text).isEmpty = true
  · rw [if_pos h0] at h
    exact absurd h (by simp)
  · rw [if_neg (by simpa using h0)] at h
    simp only [] at h
    rcases hps : priorityStep (titleAfterTime text now) d with ⟨p2, t2⟩
    rw [hps] at h
    rcases hts : tagsStep t2 with ⟨tg, t3⟩
    rw [hts] at h
    by_cases hemp : (trimChars t3).isEmpty = true
    · rw [if_pos hemp] at h
      exact absurd h (by simp)
    · rw [if_neg (by simpa using hemp)] at h
      have hpr := Except.ok.inj h
      refine ⟨?_, ?_, ?_⟩ <;> rw [← hpr]

theorem tagsStep_fst (t : List Char) : (tagsStep t).1 = (extractTags t).1 := by
  unfold tagsStep
  rcases he : extractTags t with ⟨tags, clean⟩
  by_cases h : tags.length > 0
  · simp [h]
  · have : tags = [] := List.length_eq_zero.mp (by omega)
    subst this
    simp

/-- C1 (amended): when no priority keyword occurs in the remaining title,
`ParseReminder`'s priority step yields Medium regardless of the
caller-supplied default (the default therefore survives only when it is
Medium); when a keyword pattern matches, the first matching pattern's
priority is used, but the keyword text is stripped from the title only when
that priority differs from the default; and the parsed reminder's priority
is exactly the priority step's result on the title left after time
extraction. -/
theorem c1_priority_extraction (title : List Char) (d : Priority) :
    (hasKw highKeywords title = false → hasKw lowKeywords title = false →
      priorityStep title d =
        (.medium, if d = .medium then title else trimChars title)) ∧
    (hasKw highKeywords title = true →
      priorityStep title d =
        (.high, if d = .high then title
          else trimChars (trimChars (stripKws highKeywords title)))) ∧
    (hasKw highKeywords title = false → hasKw lowKeywords title = true →
      priorityStep title d =
        (.low, if d = .low then title
          else trimChars (trimChars (stripKws lowKeywords title)))) ∧
    (∀ (text : List Char) (now : Int) (pr : ParsedReminder),
      parseReminder text d now = .ok pr →
      pr.priority = (priorityStep (titleAfterTime text now) d).1) := by
  refine ⟨?_, ?_, ?_,
    fun text now pr h => (parseReminder_ok_fields text d now pr h).1⟩
  · intro hh hl
    cases d <;> simp [priorityStep, extractPriority, hh, hl]
  · intro hh
    cases d <;> simp [priorityStep, extractPriority, hh]
  · intro hh hl
    cases d <;> simp [priorityStep, extractPriority, hh, hl]

/-- C1 counterexample: the text "hello" contains no priority keyword, yet
with caller default Low the parsed priority is Medium, not the default. -/
theorem c1_counterexample :
    hasKw highKeywords "hello".data = false ∧
    hasKw lowKeywords "hello".data = false ∧
    (parseReminder "hello".data .low 1000).map (fun pr => pr.priority) =
      .ok Priority.medium ∧
    Priority.medium ≠ Priority.low := by
  refine ⟨by decide, by decide, by decide, by decide⟩

/-- The parse of "go shopping urgent" with default Medium. -/
def c1pr : ParsedReminder :=
  ⟨"go shopping".data, 60, .high, [], false⟩

/-- C1 witness: with a High keyword present and default Medium the priority
step picks High and strips the keyword, and through `parseReminder` the
parsed priority is the step's result. -/
theorem c1_witness :
    hasKw highKeywords "call mom urgent".data = true ∧
    priorityStep "call mom urgent".data .medium =
      (.high, trimChars (trimChars
        (stripKws highKeywords "call mom urgent".data))) ∧
    parseReminder "go shopping urgent".data .medium 0 = .ok c1pr ∧
    c1pr.priority =
      (priorityStep (titleAfterTime "go shopping urgent".data 0) .medium).1 := by
  refine ⟨by decide, ?_, by decide, ?_⟩
  · have h := (c1_priority_extraction "call mom urgent".data .medium).2.1
      (by decide)
    simpa using h
  · exact (c1_priority_extraction "go shopping urgent".data .medium).2.2.2
      "go shopping urgent".data 0 c1pr (by decide)

/-- C2 (amended): the tag scan decomposes its input into kept characters and
the `#word` tokens — every token is captured (without the `#`), in
first-seen order, and removed from the remaining text — but duplicates are
preserved, not collapsed; the parsed reminder's tags are exactly the scan's
result on the title remaining after time and priority extraction, and its
title is the scan's cleaned remainder, trimmed. -/
theorem c2_tag_extraction (text : List Char) (d : Priority) (now : Int) :
    TagDecomp text (extractTagsAux (text.length + 1) text).1
      (extractTagsAux (text.length + 1) text).2 ∧
    (∀ pr, parseReminder text d now = .ok pr →
      pr.tags = (extractTags (priorityStep (titleAfterTime text now) d).2).1 ∧
      pr.title =
        trimChars (tagsStep (priorityStep (titleAfterTime text now) d).2).2) := by
  refine ⟨extractTagsAux_decomp (text.length + 1) text (Nat.le_succ _), ?_⟩
  intro pr h
  obtain ⟨_, htags, htitle⟩ := parseReminder_ok_fields text d now pr h
  exact ⟨htags.trans (tagsStep_fst _), htitle⟩

/-- C2 counterexample: the input "buy milk #a #a" parses with the duplicate
tag list ["a", "a"] — duplicates are not collapsed. -/
theorem c2_counterexample :
    (parseReminder "buy milk #a #a".data .medium 0).map (fun pr => pr.tags) =
      .ok [['a'], ['a']] ∧
    ¬ ([['a'], ['a']] : List (List Char)).Nodup := by
  refine ⟨by decide, by decide⟩

/-- The parse of "do #x and #y" with default Medium. -/
def c2pr : ParsedReminder :=
  ⟨"do  and".data, 60, .medium, [['x'], ['y']], false⟩

/-- C2 witness: the concrete input "do #x and #y" parses successfully and
its tags are the tag scan's output on the post-extraction title. -/
theorem c2_witness :
    parseReminder "do #x and #y".data .medium 0 = .ok c2pr ∧
    c2pr.tags =
      (extractTags
        (priorityStep (titleAfterTime "do #x and #y".data 0) .medium).2).1 :=
  ⟨by decide,
   ((c2_tag_extraction "do #x and #y".data .medium 0).2 c2pr (by decide)).1⟩
